import Mathlib

/-!
# Verification of the `scopedstats` core (`scopedstats.py`)

A shallow embedding of the scoped statistics collector/recorder:

* tag normalization (`_normalize_tags`),
* the per-scope accumulator `_StatsCollector` (increment / set / merge_into /
  get_stats),
* the shared filtered read-out `_get_filtered_stats`,
* the `Recorder` lifecycle (`record` entry/exit, `_merge_collector`,
  `get_result`),
* the free-function API (`incr`, the `timer` wrapper).

Python dicts are embedded as insertion-ordered association lists
(`List (key × value)`): a dict never holds duplicate keys, updating an
existing key keeps its position, and a new key is appended at the end.
Numeric sample values (`int | float` in the source; overflow and non-finite
floats are out of scope) are embedded as `ℤ`.  Wall-clock readings of
`time.perf_counter()` are inputs of the embedding; its monotonicity
(`start ≤ end`) is a hypothesis where it matters.
-/

namespace ScopedStats

/-- A tag value: Python `str | bool`. -/
inductive TagVal where
  | b (v : Bool)
  | s (v : String)
deriving DecidableEq, Repr

/-- A tag mapping (`Tags = dict[str, str | bool]`); `[]` plays the role of
both the empty dict and `None` (the source treats them identically via
truthiness: `if not tags`). -/
abbrev Tags := List (String × TagVal)

/-- A canonical tag signature: `tuple[tuple[str, str | bool], ...]`. -/
abbrev Sig := List (String × TagVal)

/-- Ordering used to sort `tags.items()`.  Python sorts the `(key, value)`
tuples lexicographically; since dict keys are unique the value component
never decides the order, but we embed the full lexicographic comparison
(booleans before strings, mirroring an arbitrary fixed tie-break that is
never exercised on duplicate-free inputs). -/
def TagVal.le : TagVal → TagVal → Prop
  | .b x, .b y => x ≤ y
  | .b _, .s _ => True
  | .s _, .b _ => False
  | .s x, .s y => x ≤ y

instance : DecidableRel TagVal.le := fun a b => by
  cases a <;> cases b <;> simp only [TagVal.le] <;> infer_instance

/-- Lexicographic order on `(key, value)` pairs, as `sorted(tags.items())`
compares them. -/
def pairLe (a b : String × TagVal) : Prop :=
  a.1 < b.1 ∨ (a.1 = b.1 ∧ TagVal.le a.2 b.2)

instance : DecidableRel pairLe := fun a b => by
  unfold pairLe; infer_instance

theorem TagVal.leTotal : ∀ (x y : TagVal), TagVal.le x y ∨ TagVal.le y x
  | .b x, .b y => Bool.le_total x y
  | .b _, .s _ => Or.inl trivial
  | .s _, .b _ => Or.inr trivial
  | .s x, .s y => le_total x y

theorem TagVal.leTrans :
    ∀ {x y z : TagVal}, TagVal.le x y → TagVal.le y z → TagVal.le x z
  | .b _, .b _, .b _, h₁, h₂ => Bool.le_trans h₁ h₂
  | .b _, _, .s _, _, _ => trivial
  | .b _, .s _, .b _, _, h₂ => h₂.elim
  | .s _, .b _, _, h₁, _ => h₁.elim
  | .s _, .s _, .b _, _, h₂ => h₂.elim
  | .s _, .s _, .s _, h₁, h₂ => le_trans h₁ h₂

theorem TagVal.leAntisymm :
    ∀ {x y : TagVal}, TagVal.le x y → TagVal.le y x → x = y
  | .b _, .b _, h₁, h₂ => congrArg TagVal.b (Bool.le_antisymm h₁ h₂)
  | .b _, .s _, _, h₂ => h₂.elim
  | .s _, .b _, h₁, _ => h₁.elim
  | .s _, .s _, h₁, h₂ => congrArg TagVal.s (le_antisymm h₁ h₂)

instance : IsTotal (String × TagVal) pairLe := by
  constructor
  intro a b
  rcases lt_trichotomy a.1 b.1 with h | h | h
  · exact Or.inl (Or.inl h)
  · rcases TagVal.leTotal a.2 b.2 with hv | hv
    · exact Or.inl (Or.inr ⟨h, hv⟩)
    · exact Or.inr (Or.inr ⟨h.symm, hv⟩)
  · exact Or.inr (Or.inl h)

instance : IsTrans (String × TagVal) pairLe := by
  constructor
  intro a b c hab hbc
  rcases hab with h₁ | ⟨e₁, v₁⟩
  · rcases hbc with h₂ | ⟨e₂, v₂⟩
    · exact Or.inl (lt_trans h₁ h₂)
    · exact Or.inl (e₂ ▸ h₁)
  · rcases hbc with h₂ | ⟨e₂, v₂⟩
    · exact Or.inl (e₁ ▸ h₂)
    · exact Or.inr ⟨e₁.trans e₂, TagVal.leTrans v₁ v₂⟩

instance : IsAntisymm (String × TagVal) pairLe := by
  constructor
  intro a b hab hba
  rcases hab with h₁ | ⟨e₁, v₁⟩
  · rcases hba with h₂ | ⟨e₂, v₂⟩
    · exact absurd h₁ (lt_asymm h₂)
    · exact absurd h₁ (e₂ ▸ lt_irrefl _)
  · rcases hba with h₂ | ⟨e₂, v₂⟩
    · exact absurd h₂ (e₁ ▸ lt_irrefl _)
    · exact Prod.ext e₁ (TagVal.leAntisymm v₁ v₂)

/-- `_normalize_tags`: `if not tags: return ()` then `tuple(sorted(tags.items()))`.
The memo table `_tag_cache` (keyed by `frozenset(tags.items())`, filled with
the sorted tuple) only ever stores the value this pure function computes, so
the embedding is the function itself. -/
def _normalize_tags (tags : Tags) : Sig :=
  if tags = [] then [] else List.insertionSort pairLe tags

/-- First-match association-list lookup: Python `d[k]` / `d.get(k)` on a dict
(whose keys are unique, so first match is the match).  Used at both dict
levels (`str` keys outside, signature keys inside). -/
def alookup {κ β : Type} [DecidableEq κ] (k : κ) : List (κ × β) → Option β
  | [] => none
  | (k', v) :: rest => if k' = k then some v else alookup k rest

/-- In-place association-list update, the embedding of `d[k] = upd(d.get(k))`:
an existing key keeps its position, a new key is appended at the end
(Python dict insertion-order semantics). -/
def aupd {κ β : Type} [DecidableEq κ] (upd : Option β → β) (k : κ) :
    List (κ × β) → List (κ × β)
  | [] => [(k, upd none)]
  | (k', v) :: rest =>
      if k' = k then (k', upd (some v)) :: rest else (k', v) :: aupd upd k rest

/-- The `_data` field of a collector or recorder:
`dict[str, dict[tuple[tuple[str, str | bool], ...], int | float]]`. -/
abbrev StatsData := List (String × List (Sig × ℤ))

/-- `self._data[key][tags_tuple] += amount` on a nested `defaultdict`
(absent entries default to `0`). -/
def incrData (key : String) (sig : Sig) (amount : ℤ) (data : StatsData) :
    StatsData :=
  aupd (fun inner => aupd (fun v => v.getD 0 + amount) sig (inner.getD [])) key data

/-- `self._data[key][tags_tuple] = value` on the nested `defaultdict`. -/
def setData (key : String) (sig : Sig) (value : ℤ) (data : StatsData) :
    StatsData :=
  aupd (fun inner => aupd (fun _ => value) sig (inner.getD [])) key data

/-- The merge loop shared (textually duplicated in the source) by
`_StatsCollector.merge_into` and `Recorder._merge_collector`:

    for key, tags_data in source._data.items():
        dst_key_data = dst._data[key]          -- defaultdict access
        for tags_tuple, amount in tags_data.items():
            dst_key_data[tags_tuple] += amount
-/
def mergeData (source target : StatsData) : StatsData :=
  source.foldl
    (fun tgt e =>
      aupd
        (fun inner =>
          e.2.foldl (fun d p => aupd (fun v => v.getD 0 + p.2) p.1 d) (inner.getD []))
        e.1 tgt)
    target

/-- `filter_items is None or filter_items.issubset(set(tags_tuple))`:
every `(key, value)` pair of the filter occurs in the signature. -/
def sigMatches (filter_items : Option Tags) (sig : Sig) : Prop :=
  match filter_items with
  | none => True
  | some f => ∀ q ∈ f, q ∈ sig

instance (fi : Option Tags) (sig : Sig) : Decidable (sigMatches fi sig) := by
  unfold sigMatches; cases fi <;> infer_instance

/-- Total of one key's inner dict over the signatures matching the filter:
the inner loop of `_get_filtered_stats`. -/
def innerTotal (filter_items : Option Tags) (inner : List (Sig × ℤ)) : ℤ :=
  inner.foldl (fun total p => if sigMatches filter_items p.1 then total + p.2 else total) 0

/-- The body of `_get_filtered_stats` after `filter_items` is fixed: one
`result[key] = total` per key whose total is positive or when unfiltered.
(`data` has unique keys — it is a dict — so building the result by
order-preserving selection is dict assignment.) -/
def filteredCore (filter_items : Option Tags) (data : StatsData) :
    List (String × ℤ) :=
  data.filterMap fun e =>
    let total := innerTotal filter_items e.2
    if 0 < total ∨ filter_items = none then some (e.1, total) else none

/-- `_get_filtered_stats(data, tag_filter)`.  Note
`filter_items = set(tag_filter.items()) if tag_filter else None`: a `None`
*or empty* `tag_filter` leaves `filter_items = None`. -/
def _get_filtered_stats (data : StatsData) (tag_filter : Option Tags) :
    List (String × ℤ) :=
  filteredCore
    (match tag_filter with
     | none => none
     | some f => if f = [] then none else some f)
    data

/-- `_StatsCollector`: the per-scope accumulator. -/
structure _StatsCollector where
  data : StatsData
deriving DecidableEq, Repr

namespace _StatsCollector

/-- `_StatsCollector()`. -/
def new : _StatsCollector := ⟨[]⟩

/-- `increment(key, tags=None, amount=1)`. -/
def increment (c : _StatsCollector) (key : String) (tags : Tags)
    (amount : ℤ) : _StatsCollector :=
  ⟨incrData key (if tags = [] then [] else _normalize_tags tags) amount c.data⟩

/-- `set(key, tags=None, value=0)`.  (`set` is kept as the source name.) -/
def set (c : _StatsCollector) (key : String) (tags : Tags) (value : ℤ) :
    _StatsCollector :=
  ⟨setData key (if tags = [] then [] else _normalize_tags tags) value c.data⟩

/-- `merge_into(target)`. -/
def merge_into (c target : _StatsCollector) : _StatsCollector :=
  ⟨mergeData c.data target.data⟩

/-- `get_stats(tag_filter=None)`. -/
def get_stats (c : _StatsCollector) (tag_filter : Option Tags) :
    List (String × ℤ) :=
  _get_filtered_stats c.data tag_filter

end _StatsCollector

/-- `Recorder`: permanent result store plus the `_has_recorded` flag. -/
structure Recorder where
  data : StatsData
  hasRecorded : Bool
deriving DecidableEq, Repr

namespace Recorder

/-- `Recorder()`. -/
def new : Recorder := ⟨[], false⟩

/-- `_merge_collector(collector)`: fold the scope's data into the permanent
store (same loop as `merge_into`, targeting `self._data`). -/
def _merge_collector (r : Recorder) (collector : _StatsCollector) : Recorder :=
  { r with data := mergeData collector.data r.data }

/-- The error message of the `require_recording` gate. -/
def noRecordingMsg : String :=
  "No recording has occurred. Use recorder.record() context manager first."

/-- `get_result(tag_filter=None, require_recording=False)`; raising
`ValueError` is embedded as `Except.error`. -/
def get_result (r : Recorder) (tag_filter : Option Tags)
    (require_recording : Bool) : Except String (List (String × ℤ)) :=
  if require_recording ∧ ¬r.hasRecorded then
    Except.error noRecordingMsg
  else
    Except.ok (_get_filtered_stats r.data tag_filter)

end Recorder

/-- The `finally` block of `Recorder.record` — it runs on every exit from the
scoped block, normal or abnormal.  Inputs: the recorder, the saved parent
collector (the ambient value captured at entry), the scope's collector, and
the elapsed wall-clock duration.  Returns the updated recorder and the
restored ambient collector (the parent, with the scope's data merged in when
present).  Steps, in source order:

1. `collector.set("total_recording_duration", value=duration)`;
2. `self._merge_collector(collector)`; `self._has_recorded = True`;
3. `_current_collector.reset(token)` — ambient becomes `parent` again;
4. `if parent_collector is not None: collector.merge_into(parent_collector)`.
-/
def recordExit (r : Recorder) (parent : Option _StatsCollector)
    (collector : _StatsCollector) (duration : ℤ) :
    Recorder × Option _StatsCollector :=
  let collector := collector.set "total_recording_duration" [] duration
  let r := { r._merge_collector collector with hasRecorded := true }
  match parent with
  | none => (r, none)
  | some p => (r, some (collector.merge_into p))

/-- The ambient task-local state (`_current_collector` context variable)
together with every live `Recorder`: the state the free-function API can see.
`incr` reads only the context variable, so the recorders ride along to state
frame conditions. -/
structure World where
  ambient : Option _StatsCollector
  recorders : List Recorder
deriving DecidableEq, Repr

/-- Free function `incr(key, tags=None, amount=1)`:

    collector = _current_collector.get()
    if collector:
        collector._data[key][tags_tuple] += amount

A `_StatsCollector` instance is always truthy, so the guard is exactly
"some collector is ambient".  Total — no exception path. -/
def incr (w : World) (key : String) (tags : Tags) (amount : ℤ) : World :=
  match w.ambient with
  | none => w
  | some c =>
      { w with
        ambient := some
          ⟨incrData key (if tags = [] then [] else _normalize_tags tags) amount
            c.data⟩ }

/-- One invocation of a `timer`-wrapped callable whose pre-computed key is
`timer_key` and whose pre-normalized signature is `tags_tuple`
(`create_wrapper` fixes both once, at wrap time).  The behaviour of the
wrapped callable is an input: `outcome` is what `f(*args, **kwargs)` does
(`Except.error` = raises, `Except.ok` = returns), and `t0`, `t1` are the two
`perf_counter` readings.  The `finally` block runs on both outcomes; the
outcome itself is returned/re-raised unchanged. -/
def timerInvoke {α : Type} (timer_key : String) (tags_tuple : Sig)
    (ambient : Option _StatsCollector) (outcome : Except String α)
    (t0 t1 : ℤ) : Except String α × Option _StatsCollector :=
  match ambient with
  | none => (outcome, none)
  | some c =>
      let duration_secs := t1 - t0
      let d1 := incrData (timer_key ++ ".count") tags_tuple 1 c.data
      let d2 := incrData (timer_key ++ ".total_dur") tags_tuple duration_secs d1
      (outcome, some ⟨d2⟩)

/-- The value stored at `(key, signature)` in an accumulator's `_data`,
with absent entries read as `0` (the `defaultdict` default). -/
def valueAt (data : StatsData) (k : String) (s : Sig) : ℤ :=
  (alookup s ((alookup k data).getD [])).getD 0

/-- The total a filtered read attributes to key `k`: the sum of `k`'s inner
dict over the signatures matching `filter_items` (0 when `k` is unknown). -/
def keyTotal (data : StatsData) (filter_items : Option Tags) (k : String) : ℤ :=
  innerTotal filter_items ((alookup k data).getD [])

/-- Well-formedness every `_data` built through the API has: both dict levels
are duplicate-free in their keys. -/
def WF (data : StatsData) : Prop :=
  (data.map Prod.fst).Nodup ∧ ∀ e ∈ data, (e.2.map Prod.fst).Nodup

instance (data : StatsData) : Decidable (WF data) := by
  unfold WF; infer_instance

instance {ε α : Type} [DecidableEq ε] [DecidableEq α] :
    DecidableEq (Except ε α) := fun a b =>
  match a, b with
  | .error e₁, .error e₂ =>
      if h : e₁ = e₂ then isTrue (by rw [h]) else isFalse (by intro hc; cases hc; exact h rfl)
  | .error _, .ok _ => isFalse (by intro hc; cases hc)
  | .ok _, .error _ => isFalse (by intro hc; cases hc)
  | .ok v₁, .ok v₂ =>
      if h : v₁ = v₂ then isTrue (by rw [h]) else isFalse (by intro hc; cases hc; exact h rfl)

/-- The nesting scenario of the spec's §8 "Nesting propagation" property, on
one Recorder `R`:

    with R.record():          -- outer scope, collector S1, parent None
        increment("x")        --   S1: x += 1
        with R.record():      -- inner scope, collector S2, parent S1
            increment("x")    --   S2: x += 1
                              -- inner exit (duration d2): S2 → R, S2 → S1
                              -- outer exit (duration d1): S1 → R

`d1`, `d2` are the two scopes' wall-clock durations. -/
def c1Run (d1 d2 : ℤ) : Recorder :=
  let R := Recorder.new
  let S1 := _StatsCollector.new.increment "x" [] 1
  let S2 := _StatsCollector.new.increment "x" [] 1
  let innerExit := recordExit R (some S1) S2 d2
  (recordExit innerExit.1 none (innerExit.2.getD _StatsCollector.new) d1).1

/-! ## Association-list laws -/

theorem alookup_aupd {κ β : Type} [DecidableEq κ] (upd : Option β → β)
    (j k : κ) (l : List (κ × β)) :
    alookup k (aupd upd j l) =
      if j = k then some (upd (alookup k l)) else alookup k l := by
  induction l with
  | nil => by_cases h : j = k <;> simp [alookup, aupd, h]
  | cons e rest ih =>
    obtain ⟨a, v⟩ := e
    by_cases h1 : a = j
    · subst h1
      by_cases h2 : a = k
      · subst h2; simp [aupd, alookup]
      · simp [aupd, alookup, h2]
    · by_cases h2 : a = k
      · subst h2
        have h3 : j ≠ a := fun hc => h1 hc.symm
        simp [aupd, alookup, h1, h3]
      · simp [aupd, alookup, h1, h2, ih]

theorem alookup_eq_none_of_not_mem {κ β : Type} [DecidableEq κ] {k : κ}
    {l : List (κ × β)} (h : k ∉ l.map Prod.fst) : alookup k l = none := by
  induction l with
  | nil => rfl
  | cons e rest ih =>
    have hne : e.1 ≠ k := fun hc => h (by simp [hc])
    have : k ∉ rest.map Prod.fst := fun hc => h (by simp [hc])
    obtain ⟨a, v⟩ := e
    simp only [alookup, if_neg hne]
    exact ih this

theorem mem_of_alookup_eq_some {κ β : Type} [DecidableEq κ] {k : κ} {v : β}
    {l : List (κ × β)} (h : alookup k l = some v) : (k, v) ∈ l := by
  induction l with
  | nil => exact absurd h (by simp [alookup])
  | cons e rest ih =>
    obtain ⟨a, w⟩ := e
    by_cases ha : a = k
    · subst ha
      have hw : some w = some v := by simpa [alookup] using h
      obtain rfl : w = v := Option.some.inj hw
      exact List.mem_cons_self _ _
    · have h' : alookup k rest = some v := by simpa [alookup, ha] using h
      exact List.mem_cons_of_mem _ (ih h')

theorem mem_aupd {κ β : Type} [DecidableEq κ] {upd : Option β → β} {j : κ}
    {l : List (κ × β)} {e : κ × β} (h : e ∈ aupd upd j l) :
    e ∈ l ∨ e = (j, upd (alookup j l)) := by
  induction l with
  | nil =>
    have he : e = (j, upd none) := by simpa [aupd] using h
    exact Or.inr (by simp [he, alookup])
  | cons hd rest ih =>
    obtain ⟨a, v⟩ := hd
    by_cases ha : a = j
    · subst ha
      have hrw : aupd upd a ((a, v) :: rest) = (a, upd (some v)) :: rest := by
        simp [aupd]
      rw [hrw] at h
      rcases List.mem_cons.mp h with he | he
      · exact Or.inr (by simp [he, alookup])
      · exact Or.inl (List.mem_cons_of_mem _ he)
    · have hrw : aupd upd j ((a, v) :: rest) = (a, v) :: aupd upd j rest := by
        simp [aupd, ha]
      rw [hrw] at h
      rcases List.mem_cons.mp h with he | he
      · exact Or.inl (by simp [he])
      · rcases ih he with h' | h'
        · exact Or.inl (List.mem_cons_of_mem _ h')
        · exact Or.inr (by simpa [alookup, ha] using h')

theorem aupd_keys {κ β : Type} [DecidableEq κ] (upd : Option β → β) (j : κ)
    (l : List (κ × β)) :
    (aupd upd j l).map Prod.fst =
      if j ∈ l.map Prod.fst then l.map Prod.fst else l.map Prod.fst ++ [j] := by
  induction l with
  | nil => simp [aupd]
  | cons hd rest ih =>
    obtain ⟨a, v⟩ := hd
    by_cases ha : a = j
    · subst ha; simp [aupd]
    · have ha' : j ≠ a := fun hc => ha hc.symm
      by_cases hm : j ∈ rest.map Prod.fst <;>
        simp [aupd, ha, ha', hm, ih]

theorem nodup_keys_aupd {κ β : Type} [DecidableEq κ] (upd : Option β → β)
    (j : κ) {l : List (κ × β)} (h : (l.map Prod.fst).Nodup) :
    ((aupd upd j l).map Prod.fst).Nodup := by
  rw [aupd_keys]
  by_cases hm : j ∈ l.map Prod.fst
  · simpa [hm] using h
  · simp only [hm, if_false]
    refine h.append (List.nodup_singleton j) ?_
    intro x hx hj
    simp only [List.mem_singleton] at hj
    subst hj
    exact hm hx

/-! ## Value-level laws of the accumulator operations -/

theorem valueAt_incrData (j : String) (s' : Sig) (a : ℤ) (d : StatsData)
    (k : String) (s : Sig) :
    valueAt (incrData j s' a d) k s =
      if j = k ∧ s' = s then valueAt d k s + a else valueAt d k s := by
  unfold valueAt incrData
  rw [alookup_aupd]
  by_cases hk : j = k
  · subst hk
    rw [if_pos rfl, Option.getD_some, alookup_aupd]
    by_cases hs : s' = s
    · subst hs
      rw [if_pos rfl, if_pos ⟨rfl, rfl⟩, Option.getD_some]
    · rw [if_neg hs, if_neg (fun hc => hs hc.2)]
  · rw [if_neg hk, if_neg (fun hc => hk hc.1)]

theorem valueAt_setData (j : String) (s' : Sig) (v : ℤ) (d : StatsData)
    (k : String) (s : Sig) :
    valueAt (setData j s' v d) k s =
      if j = k ∧ s' = s then v else valueAt d k s := by
  unfold valueAt setData
  rw [alookup_aupd]
  by_cases hk : j = k
  · subst hk
    rw [if_pos rfl, Option.getD_some, alookup_aupd]
    by_cases hs : s' = s
    · subst hs
      rw [if_pos rfl, if_pos ⟨rfl, rfl⟩, Option.getD_some]
    · rw [if_neg hs, if_neg (fun hc => hs hc.2)]
  · rw [if_neg hk, if_neg (fun hc => hk hc.1)]

/-- The inner loop of a merge (`for tags_tuple, amount in tags_data.items():
dst_key_data[tags_tuple] += amount`) adds, entry-wise, the source inner dict
onto the base inner dict. -/
theorem alookup_merge_inner (inner0 base : List (Sig × ℤ)) (s : Sig)
    (h : (inner0.map Prod.fst).Nodup) :
    (alookup s (inner0.foldl
        (fun d p => aupd (fun v => v.getD 0 + p.2) p.1 d) base)).getD 0
      = (alookup s base).getD 0 + (alookup s inner0).getD 0 := by
  induction inner0 generalizing base with
  | nil => simp [alookup]
  | cons p rest ih =>
    obtain ⟨s0, v0⟩ := p
    have hnd : (rest.map Prod.fst).Nodup := (List.nodup_cons.mp (by simpa using h)).2
    have hs0 : s0 ∉ rest.map Prod.fst := (List.nodup_cons.mp (by simpa using h)).1
    simp only [List.foldl_cons]
    rw [ih _ hnd, alookup_aupd]
    by_cases hss : s0 = s
    · subst hss
      rw [alookup_eq_none_of_not_mem hs0]
      simp [alookup]
    · simp [alookup, hss]

/-- `merge_into` / `_merge_collector` is entry-wise addition: after the merge,
the destination holds source + destination at every `(key, signature)`,
absent entries counting as `0`. -/
theorem valueAt_mergeData (k : String) (s : Sig) :
    ∀ (src tgt : StatsData), WF src →
      valueAt (mergeData src tgt) k s = valueAt src k s + valueAt tgt k s := by
  intro src
  induction src with
  | nil => intro tgt _; simp [mergeData, valueAt, alookup]
  | cons e rest ih =>
    intro tgt h
    obtain ⟨k0, inner0⟩ := e
    have hrest : WF rest :=
      ⟨(List.nodup_cons.mp (by simpa using h.1)).2,
       fun e' he' => h.2 e' (List.mem_cons_of_mem _ he')⟩
    have hk0 : k0 ∉ rest.map Prod.fst := (List.nodup_cons.mp (by simpa using h.1)).1
    have hin : (inner0.map Prod.fst).Nodup := by
      simpa using h.2 (k0, inner0) (List.mem_cons_self _ _)
    show valueAt (mergeData rest _) k s = _
    rw [ih _ hrest]
    unfold valueAt
    rw [alookup_aupd]
    by_cases hk : k0 = k
    · subst hk
      have hnone : alookup k0 rest = (none : Option (List (Sig × ℤ))) :=
        alookup_eq_none_of_not_mem hk0
      have hhead : alookup k0 ((k0, inner0) :: rest) = some inner0 := by
        simp [alookup]
      rw [hnone, hhead, if_pos rfl]
      simp only [Option.getD_some, Option.getD_none]
      rw [alookup_merge_inner _ _ _ hin]
      simp [alookup]
      omega
    · have hhead : alookup k ((k0, inner0) :: rest) = alookup k rest := by
        simp [alookup, hk]
      rw [hhead, if_neg hk]

/-- The inner merge loop preserves duplicate-freedom of the inner dict's
signature keys. -/
theorem nodup_keys_merge_inner (inner0 : List (Sig × ℤ))
    {base : List (Sig × ℤ)} (h : (base.map Prod.fst).Nodup) :
    (((inner0.foldl (fun d p => aupd (fun v => v.getD 0 + p.2) p.1 d)
        base).map Prod.fst)).Nodup := by
  induction inner0 generalizing base with
  | nil => exact h
  | cons p rest ih =>
    simp only [List.foldl_cons]
    exact ih (nodup_keys_aupd _ _ h)

/-- Merging one well-formed accumulator into another yields a well-formed
accumulator. -/
theorem WF_mergeData : ∀ (src tgt : StatsData), WF src → WF tgt →
    WF (mergeData src tgt) := by
  intro src
  induction src with
  | nil => intro tgt _ h2; exact h2
  | cons e rest ih =>
    intro tgt h1 h2
    obtain ⟨k0, inner0⟩ := e
    have hrest : WF rest :=
      ⟨(List.nodup_cons.mp (by simpa using h1.1)).2,
       fun e' he' => h1.2 e' (List.mem_cons_of_mem _ he')⟩
    show WF (mergeData rest _)
    refine ih _ hrest ⟨nodup_keys_aupd _ _ h2.1, ?_⟩
    intro e' he'
    rcases mem_aupd he' with hmem | heq
    · exact h2.2 e' hmem
    · subst heq
      cases hbase : alookup k0 tgt with
      | none =>
          simp only [hbase, Option.getD_none]
          exact nodup_keys_merge_inner _ (by simp)
      | some i =>
          simp only [hbase, Option.getD_some]
          exact nodup_keys_merge_inner _
            (by simpa using h2.2 (k0, i) (mem_of_alookup_eq_some hbase))

/-! ## The filtered read-out -/

/-- No key absent from the data appears in a filtered read. -/
theorem alookup_filteredCore_of_not_mem {fi : Option Tags} {k : String}
    {data : StatsData} (h : k ∉ data.map Prod.fst) :
    alookup k (filteredCore fi data) = none := by
  induction data with
  | nil => rfl
  | cons e rest ih =>
    have hne : e.1 ≠ k := fun hc => h (by simp [hc])
    have hrest : k ∉ rest.map Prod.fst := fun hc => h (by simp [hc])
    obtain ⟨a, inner⟩ := e
    simp only [filteredCore, List.filterMap_cons]
    by_cases hc : 0 < innerTotal fi inner ∨ fi = none
    · simp only [if_pos hc, alookup, if_neg hne]
      exact ih hrest
    · simp only [if_neg hc]
      exact ih hrest

/-- Unfolding one step of the filtered read: the head key contributes its
entry when its total is positive or no filter is in force. -/
theorem filteredCore_cons (fi : Option Tags) (e : String × List (Sig × ℤ))
    (rest : StatsData) :
    filteredCore fi (e :: rest) =
      (if 0 < innerTotal fi e.2 ∨ fi = none then [(e.1, innerTotal fi e.2)]
        else []) ++ filteredCore fi rest := by
  by_cases hc : 0 < innerTotal fi e.2 ∨ fi = none <;>
    simp [filteredCore, List.filterMap_cons, hc]

/-- Full characterization of one key of `filteredCore` on duplicate-free
data: the key is present exactly when it is known and (its matching total is
positive, or no filter is in force), and it is then bound to that total. -/
theorem alookup_filteredCore (fi : Option Tags) (k : String) :
    ∀ (data : StatsData), (data.map Prod.fst).Nodup →
      alookup k (filteredCore fi data) =
        if k ∈ data.map Prod.fst ∧ (0 < keyTotal data fi k ∨ fi = none) then
          some (keyTotal data fi k)
        else none := by
  intro data
  induction data with
  | nil => intro _; simp [filteredCore, alookup]
  | cons e rest ih =>
    intro hnd
    obtain ⟨k0, inner⟩ := e
    have hk0 : k0 ∉ rest.map Prod.fst := (List.nodup_cons.mp (by simpa using hnd)).1
    have hrest : (rest.map Prod.fst).Nodup := (List.nodup_cons.mp (by simpa using hnd)).2
    rw [filteredCore_cons]
    by_cases hk : k0 = k
    · subst hk
      have htot : keyTotal ((k0, inner) :: rest) fi k0 = innerTotal fi inner := by
        simp [keyTotal, alookup]
      rw [htot]
      by_cases hc : 0 < innerTotal fi inner ∨ fi = none
      · rw [if_pos hc]
        simp only [List.singleton_append]
        have hhd : alookup k0 ((k0, innerTotal fi inner) :: filteredCore fi rest)
            = some (innerTotal fi inner) := by simp [alookup]
        rw [hhd]
        simp [hc]
      · rw [if_neg hc]
        simp only [List.nil_append]
        rw [alookup_filteredCore_of_not_mem hk0]
        simp [hc]
    · have hk' : ¬(k = k0) := fun hcc => hk hcc.symm
      have htot : keyTotal ((k0, inner) :: rest) fi k = keyTotal rest fi k := by
        simp [keyTotal, alookup, hk]
      rw [htot]
      by_cases hc : 0 < innerTotal fi inner ∨ fi = none
      · rw [if_pos hc]
        simp only [List.singleton_append]
        have hskip : alookup k ((k0, innerTotal fi inner) :: filteredCore fi rest)
            = alookup k (filteredCore fi rest) := by simp [alookup, hk]
        rw [hskip, ih hrest]
        by_cases hm : k ∈ rest.map Prod.fst <;> simp [hm, hk']
      · rw [if_neg hc]
        simp only [List.nil_append]
        rw [ih hrest]
        by_cases hm : k ∈ rest.map Prod.fst <;> simp [hm, hk']

/-! ## Claims -/

/-- C6: Set overwrite — for every key `k`, tag set, and values `v1`, `v2`,
performing `set(k, tags, v1)` then `set(k, tags, v2)` on an accumulator
leaves `filtered_read()[k]` equal to `v2`: the earlier value is discarded,
not added. -/
theorem set_overwrite (k : String) (tags : Tags) (v1 v2 : ℤ) :
    alookup k (((_StatsCollector.new.set k tags v1).set k tags v2).get_stats none)
      = some v2 := by
  have hdata : ((_StatsCollector.new.set k tags v1).set k tags v2).data
      = [(k, [(if tags = [] then [] else _normalize_tags tags, v2)])] := by
    simp [_StatsCollector.set, _StatsCollector.new, setData, aupd]
  simp [_StatsCollector.get_stats, hdata, _get_filtered_stats, filteredCore,
    List.filterMap_cons, innerTotal, sigMatches, alookup]

/-- C8: Tag normalization is order-independent and referentially transparent —
two tag mappings with identical `(key, value)` content (a permutation of one
another; dict keys are unique) normalize to the identical canonical
signature, which is sorted (by key, with a value tie-break never exercised on
duplicate-free keys) and holds exactly the input's pairs.  The memo table is
keyed by `frozenset(tags.items())`, which is likewise content-determined, and
only ever stores this function's value, so memoization cannot change the
returned signature. -/
theorem normalize_tags_order_independent (t1 t2 : Tags) (hp : t1.Perm t2) :
    _normalize_tags t1 = _normalize_tags t2
    ∧ List.Sorted pairLe (_normalize_tags t1)
    ∧ (_normalize_tags t1).Perm t1 := by
  by_cases h1 : t1 = []
  · subst h1
    have h2 : t2 = [] := hp.symm.eq_nil
    subst h2
    exact ⟨rfl, by simp [_normalize_tags], by simp [_normalize_tags]⟩
  · have h2 : t2 ≠ [] := fun hc => h1 (by simpa [hc] using hp)
    have e1 : _normalize_tags t1 = List.insertionSort pairLe t1 := by
      simp [_normalize_tags, h1]
    have e2 : _normalize_tags t2 = List.insertionSort pairLe t2 := by
      simp [_normalize_tags, h2]
    refine ⟨?_, ?_, ?_⟩
    · rw [e1, e2]
      exact List.eq_of_perm_of_sorted
        (((List.perm_insertionSort pairLe t1).trans hp).trans
          (List.perm_insertionSort pairLe t2).symm)
        (List.sorted_insertionSort pairLe t1)
        (List.sorted_insertionSort pairLe t2)
    · rw [e1]; exact List.sorted_insertionSort pairLe t1
    · rw [e1]; exact List.perm_insertionSort pairLe t1

/-- C8 witness: the spec's own instance — `normalize({"a":"1","b":"2"})`
equals `normalize({"b":"2","a":"1"})`. -/
theorem normalize_tags_order_independent_witness :
    _normalize_tags [("a", TagVal.s "1"), ("b", TagVal.s "2")]
      = _normalize_tags [("b", TagVal.s "2"), ("a", TagVal.s "1")] :=
  (normalize_tags_order_independent
    [("a", TagVal.s "1"), ("b", TagVal.s "2")]
    [("b", TagVal.s "2"), ("a", TagVal.s "1")] (by decide)).1

/-- C9: No-op without scope — when no `record()` scope is ambient, the free
function `increment` (the source's `incr`) returns without error (it is a
total function of the world) and leaves the whole world — the ambient
context variable and every Recorder's result store — unchanged. -/
theorem incr_noop_without_scope (w : World) (key : String) (tags : Tags)
    (amount : ℤ) (h : w.ambient = none) :
    incr w key tags amount = w := by
  simp [incr, h]

/-- C9 witness: a concrete world with one Recorder and no ambient scope is
untouched by `incr`. -/
theorem incr_noop_without_scope_witness :
    incr ⟨none, [Recorder.new]⟩ "requests" [] 5 = ⟨none, [Recorder.new]⟩ :=
  incr_noop_without_scope ⟨none, [Recorder.new]⟩ "requests" [] 5 rfl

/-- C10: an empty `tag_filter` behaves exactly like passing no filter at all,
both at the `_get_filtered_stats` level and through `Recorder.get_result`
(`filter_items = set(tag_filter.items()) if tag_filter else None` treats the
empty dict, which is falsy, like `None`). -/
theorem empty_filter_is_no_filter (data : StatsData) (r : Recorder) (rr : Bool) :
    _get_filtered_stats data (some []) = _get_filtered_stats data none
    ∧ r.get_result (some []) rr = r.get_result none rr := by
  have h1 : ∀ d : StatsData,
      _get_filtered_stats d (some []) = _get_filtered_stats d none :=
    fun _ => rfl
  exact ⟨h1 data, by unfold Recorder.get_result; rw [h1 r.data]⟩

/-- C3: require_recording gate — `get_result(require_recording=True)` fails
with the invalid-state error if and only if no `record()` scope has ever
completed on that Recorder (the `_has_recorded` flag, false at construction
and set by the unconditional `finally` block of every scope exit, normal or
abnormal).  After any scope exit the same call succeeds and returns the
filtered result store. -/
theorem require_recording_gate (f : Option Tags) (r : Recorder)
    (parent : Option _StatsCollector) (S : _StatsCollector) (d : ℤ) :
    Recorder.new.get_result f true = Except.error Recorder.noRecordingMsg
    ∧ (recordExit r parent S d).1.hasRecorded = true
    ∧ (recordExit r parent S d).1.get_result f true
        = Except.ok (_get_filtered_stats (recordExit r parent S d).1.data f)
    ∧ ((∃ msg, r.get_result f true = Except.error msg) ↔ r.hasRecorded = false) := by
  refine ⟨by simp [Recorder.get_result, Recorder.new], ?_, ?_, ?_⟩
  · cases parent <;> simp [recordExit]
  · cases parent <;> simp [recordExit, Recorder.get_result]
  · constructor
    · rintro ⟨msg, hmsg⟩
      by_cases hr : r.hasRecorded
      · simp [Recorder.get_result, hr] at hmsg
      · simpa using hr
    · intro hr
      exact ⟨Recorder.noRecordingMsg, by simp [Recorder.get_result, hr]⟩

/-- C3 witness: on a fresh Recorder the gated call errors, and after one
(trivial) scope exit it succeeds. -/
theorem require_recording_gate_witness :
    Recorder.new.get_result none true = Except.error Recorder.noRecordingMsg
    ∧ (recordExit Recorder.new none _StatsCollector.new 4).1.hasRecorded = true :=
  ⟨(require_recording_gate none Recorder.new none _StatsCollector.new 4).1,
   (require_recording_gate none Recorder.new none _StatsCollector.new 4).2.1⟩

/-- The two derived keys of a timed call are distinct for every base key. -/
theorem timer_keys_ne (key : String) : key ++ ".count" ≠ key ++ ".total_dur" := by
  intro h
  have h2 : (".count" : String) = ".total_dur" := by
    have h3 := congrArg String.data h
    rw [String.data_append, String.data_append] at h3
    exact String.ext (List.append_cancel_left h3)
  exact absurd h2 (by decide)

/-- C4: Timed wrapper failure path — invoking a `timer`-wrapped callable
inside an active scope, when the inner call raises, still increments
`<key>.count` by 1 and adds the nonnegative elapsed duration (`perf_counter`
is monotonic: `t0 ≤ t1`) to `<key>.total_dur` in the ambient accumulator,
every other entry being untouched, and re-raises the original failure
unchanged. -/
theorem timer_failure_path {α : Type} (key : String) (sig : Sig)
    (c : _StatsCollector) (e : String) (t0 t1 : ℤ) (hmono : t0 ≤ t1) :
    (timerInvoke key sig (some c) (Except.error e : Except String α) t0 t1).1
      = Except.error e
    ∧ ∃ c', (timerInvoke key sig (some c) (Except.error e : Except String α) t0 t1).2
        = some c'
      ∧ valueAt c'.data (key ++ ".count") sig
          = valueAt c.data (key ++ ".count") sig + 1
      ∧ valueAt c'.data (key ++ ".total_dur") sig
          = valueAt c.data (key ++ ".total_dur") sig + (t1 - t0)
      ∧ 0 ≤ t1 - t0 := by
  refine ⟨rfl, _, rfl, ?_, ?_, by omega⟩
  · show valueAt (incrData (key ++ ".total_dur") sig (t1 - t0)
        (incrData (key ++ ".count") sig 1 c.data)) (key ++ ".count") sig = _
    rw [valueAt_incrData,
      if_neg (fun hc => timer_keys_ne key hc.1.symm),
      valueAt_incrData, if_pos ⟨rfl, rfl⟩]
  · show valueAt (incrData (key ++ ".total_dur") sig (t1 - t0)
        (incrData (key ++ ".count") sig 1 c.data)) (key ++ ".total_dur") sig = _
    rw [valueAt_incrData, if_pos ⟨rfl, rfl⟩,
      valueAt_incrData, if_neg (fun hc => timer_keys_ne key hc.1)]

/-- C4 witness: a concrete failing timed call inside a scope (clock readings
2 and 5) books one call and 3 time units against the derived keys and
re-raises. -/
theorem timer_failure_path_witness :
    (timerInvoke "calls.f" [] (some _StatsCollector.new)
        (Except.error "boom" : Except String ℤ) 2 5).1 = Except.error "boom"
    ∧ ∃ c', (timerInvoke "calls.f" [] (some _StatsCollector.new)
        (Except.error "boom" : Except String ℤ) 2 5).2 = some c'
      ∧ valueAt c'.data ("calls.f" ++ ".count") []
          = valueAt _StatsCollector.new.data ("calls.f" ++ ".count") [] + 1
      ∧ valueAt c'.data ("calls.f" ++ ".total_dur") []
          = valueAt _StatsCollector.new.data ("calls.f" ++ ".total_dur") [] + (5 - 2)
      ∧ (0 : ℤ) ≤ 5 - 2 :=
  timer_failure_path "calls.f" [] _StatsCollector.new "boom" 2 5 (by decide)

/-- Folding increments of one `(key, signature)` cell accumulates the sum of
the amounts onto the cell. -/
theorem foldl_incrData_single (k : String) (sg : Sig) :
    ∀ (amts : List ℤ) (x : ℤ),
      amts.foldl (fun d a => incrData k sg a d) [(k, [(sg, x)])]
        = [(k, [(sg, x + amts.sum)])] := by
  intro amts
  induction amts with
  | nil => intro x; simp
  | cons a rest ih =>
    intro x
    have hstep : incrData k sg a [(k, [(sg, x)])] = [(k, [(sg, x + a)])] := by
      simp [incrData, aupd]
    simp only [List.foldl_cons, hstep, ih, List.sum_cons]
    rw [add_assoc]

/-- A fold of `increment` calls over a collector is the corresponding fold of
`incrData` over its `_data`. -/
theorem foldl_increment_data (k : String) (tags : Tags) :
    ∀ (amts : List ℤ) (c : _StatsCollector),
      (amts.foldl (fun c' a => c'.increment k tags a) c).data
        = amts.foldl
            (fun d a => incrData k (if tags = [] then [] else _normalize_tags tags) a d)
            c.data := by
  intro amts
  induction amts with
  | nil => intro c; rfl
  | cons a rest ih =>
    intro c
    simp only [List.foldl_cons, ih]
    rfl

/-- C5 (amended): Increment additivity — for every key `k`, fixed tag set,
and *nonempty* sequence of `increment(k, tags, amt_i)` calls on a fresh
accumulator, the unfiltered `filtered_read` maps `k` to the sum of the
`amt_i` (even when that sum is 0, since the unfiltered read keeps zero
totals).  With *no* increments the accumulator has no entry for `k` at all,
so the read omits `k` instead of reporting the empty sum 0 — see the
counterexample. -/
theorem increment_additivity (k : String) (tags : Tags) (amts : List ℤ)
    (h : amts ≠ []) :
    alookup k ((amts.foldl (fun c a => c.increment k tags a)
      _StatsCollector.new).get_stats none) = some amts.sum := by
  obtain ⟨a, rest, rfl⟩ := List.exists_cons_of_ne_nil h
  have hdata := foldl_increment_data k tags (a :: rest) _StatsCollector.new
  simp only [List.foldl_cons] at hdata
  have hfirst : incrData k (if tags = [] then [] else _normalize_tags tags) a
      _StatsCollector.new.data
        = [(k, [((if tags = [] then [] else _normalize_tags tags), 0 + a)])] := by
    simp [incrData, aupd, _StatsCollector.new]
  rw [hfirst, foldl_incrData_single] at hdata
  have hread : ∀ (sg : Sig) (v : ℤ),
      _get_filtered_stats [(k, [(sg, v)])] none = [(k, v)] := by
    intro sg v
    show filteredCore none [(k, [(sg, v)])] = [(k, v)]
    simp [filteredCore, List.filterMap_cons, innerTotal, sigMatches]
  simp only [_StatsCollector.get_stats, List.foldl_cons, hdata, hread]
  simp [alookup, add_assoc]

/-- C5 witness: three increments (amounts 2, −2, 7) on a fresh accumulator
read back as their sum 7. -/
theorem increment_additivity_witness :
    ([2, -2, 7] : List ℤ) ≠ []
    ∧ alookup "n" ((([2, -2, 7] : List ℤ).foldl
        (fun c a => c.increment "n" [] a) _StatsCollector.new).get_stats none)
      = some ([2, -2, 7] : List ℤ).sum :=
  ⟨by decide, increment_additivity "n" [] [2, -2, 7] (by decide)⟩

/-- C5 counterexample: the claim quantifies over *every* finite sequence of
increments, but for the empty sequence the fresh accumulator has no entry
for the key, so the unfiltered read omits it entirely instead of mapping it
to the empty sum 0. -/
theorem increment_additivity_counterexample :
    ¬ (alookup "k" ((([] : List ℤ).foldl (fun c a => c.increment "k" [] a)
        _StatsCollector.new).get_stats none) = some (([] : List ℤ)).sum) := by
  decide

/-- Concrete accumulator state for the C2 witness. -/
def zsData : StatsData := [("k", [([("env", TagVal.s "p")], 2)])]

/-- Concrete nonempty filter for the C2 witness. -/
def zsFilter : Tags := [("env", TagVal.s "p")]

/-- C2 (amended): Filtered read zero-suppression — when a *nonempty* tag
filter is supplied, a key is omitted from the returned mapping exactly when
its total over superset-matching signatures is *not positive* (`total > 0`
is the inclusion test, so zero *and negative* totals are suppressed; an
empty supplied filter is treated as no filter, per C10); when no filter is
supplied, every known key is included even when its total is 0 or
negative. -/
theorem filtered_zero_suppression (data : StatsData) (f : Tags) (k : String)
    (hf : f ≠ []) (hnd : (data.map Prod.fst).Nodup) :
    alookup k (_get_filtered_stats data (some f)) =
      (if k ∈ data.map Prod.fst ∧ 0 < keyTotal data (some f) k then
        some (keyTotal data (some f) k) else none)
    ∧ alookup k (_get_filtered_stats data none) =
      (if k ∈ data.map Prod.fst then some (keyTotal data none k) else none) := by
  constructor
  · show alookup k (filteredCore (if f = [] then none else some f) data) = _
    rw [if_neg hf, alookup_filteredCore _ _ _ hnd]
    simp only [Option.some_ne_none, or_false]
  · show alookup k (filteredCore none data) = _
    rw [alookup_filteredCore _ _ _ hnd]
    simp only [eq_self_iff_true, or_true, and_true]

/-- C2 witness: a filtered read over a one-key store with matching total 2
returns that key bound to 2. -/
theorem filtered_zero_suppression_witness :
    zsFilter ≠ [] ∧ (zsData.map Prod.fst).Nodup
    ∧ alookup "k" (_get_filtered_stats zsData (some zsFilter)) =
        (if "k" ∈ zsData.map Prod.fst ∧ 0 < keyTotal zsData (some zsFilter) "k" then
          some (keyTotal zsData (some zsFilter) "k") else none) :=
  ⟨by decide, by decide,
   (filtered_zero_suppression zsData zsFilter "k" (by decide) (by decide)).1⟩

/-- C2 counterexample: a single `increment(k, tags={"env":"prod"}, −1)` gives
the key a matching total of −1, which is nonzero, yet the filtered read
omits the key (the source includes a key only when `total > 0`), refuting
"omitted exactly when the total equals 0". -/
theorem filtered_zero_suppression_counterexample :
    alookup "k" ((_StatsCollector.new.increment "k" [("env", TagVal.s "prod")]
        (-1)).get_stats (some [("env", TagVal.s "prod")])) = none
    ∧ keyTotal (_StatsCollector.new.increment "k" [("env", TagVal.s "prod")]
        (-1)).data (some [("env", TagVal.s "prod")]) "k" = -1 := by
  decide

/-- C1 (amended): Nesting propagation — in the spec's §8 scenario (an outer
`record()` on `R` performing one `increment("x")` and containing a nested
`record()` on the same `R` that also performs one `increment("x")`), after
both scopes close `R.get_result()["x"]` equals **3**, not 2: the inner
scope's increment reaches `R` once directly when the inner scope closes and
a second time inside the outer scope's accumulator (which holds 1 + 1 = 2
after the fold-up) when the outer scope closes, whatever the two scopes'
durations were. -/
theorem nesting_propagation (d1 d2 : ℤ) :
    Except.map (fun res => alookup "x" res) ((c1Run d1 d2).get_result none false)
      = Except.ok (some (3 : ℤ)) := rfl

/-- C1 counterexample: with concrete durations, `R.get_result()["x"]` is not
2 after the nested scenario (it is 3). -/
theorem nesting_propagation_counterexample :
    Except.map (fun res => alookup "x" res) ((c1Run 5 3).get_result none false)
      ≠ Except.ok (some (2 : ℤ)) := by
  decide

/-- C7: Merge additivity — for well-formed accumulators (dicts have
duplicate-free keys at both levels), after `source.merge_into(destination)`
the destination's value at each `(metric key, tag signature)` equals the
source's prior value plus the destination's prior value, absent entries
counting as 0; at this per-`(key, signature)` level merging is commutative
and associative. -/
theorem merge_additivity (a b c : _StatsCollector) (k : String) (s : Sig)
    (ha : WF a.data) (hb : WF b.data) (_hc : WF c.data) :
    valueAt (a.merge_into b).data k s = valueAt a.data k s + valueAt b.data k s
    ∧ valueAt (a.merge_into b).data k s = valueAt (b.merge_into a).data k s
    ∧ valueAt (a.merge_into (b.merge_into c)).data k s
        = valueAt ((a.merge_into b).merge_into c).data k s := by
  have h1 := valueAt_mergeData k s a.data b.data ha
  have h2 := valueAt_mergeData k s b.data a.data hb
  simp only [_StatsCollector.merge_into]
  refine ⟨h1, by rw [h1, h2]; omega, ?_⟩
  have h3 := valueAt_mergeData k s b.data c.data hb
  have h4 := valueAt_mergeData k s a.data (mergeData b.data c.data) ha
  have h5 := valueAt_mergeData k s (mergeData a.data b.data) c.data
    (WF_mergeData a.data b.data ha hb)
  rw [h4, h3, h5, h1]
  omega

/-- C7 witness: concrete two-key accumulators; the merge laws hold at
`("x", ())`. -/
theorem merge_additivity_witness :
    WF (⟨[("x", [([], 1)])]⟩ : _StatsCollector).data
    ∧ valueAt ((⟨[("x", [([], 1)])]⟩ : _StatsCollector).merge_into
          ⟨[("x", [([], 2)]), ("y", [([], 5)])]⟩).data "x" []
        = valueAt (⟨[("x", [([], 1)])]⟩ : _StatsCollector).data "x" []
          + valueAt (⟨[("x", [([], 2)]), ("y", [([], 5)])]⟩ : _StatsCollector).data "x" [] :=
  ⟨by decide,
   (merge_additivity ⟨[("x", [([], 1)])]⟩ ⟨[("x", [([], 2)]), ("y", [([], 5)])]⟩
      ⟨[]⟩ "x" [] (by decide) (by decide) (by decide)).1⟩

end ScopedStats
